import Mathlib

/-!
Verification of the domain-runner core against its specification.

The Rust sources are shallowly embedded as Lean definitions:
`f32` arithmetic is modelled by exact real arithmetic (`ℝ`) where square
roots occur (drift engine) and by exact rational arithmetic (`ℚ`) elsewhere;
Rust strings are modelled as `List Char` (the texts of interest are ASCII,
where Rust's byte length coincides with the character count); wall-clock
instants and durations are modelled as naturals (milliseconds or seconds).
-/

namespace DomainRunner

/-- Drift classification states, from `src/domain.rs` (`DriftStatus`). -/
inductive DriftStatus where
  | Stable
  | Drifting
  | Decayed
deriving DecidableEq, Repr

/-! ### Drift engine (`src/drift.rs`) -/

/-- Sum of squares of the entries of a vector (the square of the Euclidean
norm computed by `nalgebra`'s `DVector::norm`). -/
def sumSq (l : List ℝ) : ℝ := (l.map fun x => x * x).sum

/-- Dot product of two vectors (`DVector::dot`); the Rust code asserts the
lengths are equal before computing it. -/
def dotList (a b : List ℝ) : ℝ := (List.zipWith (· * ·) a b).sum

/-- Euclidean norm (`DVector::norm`). -/
noncomputable def normR (l : List ℝ) : ℝ := Real.sqrt (sumSq l)

/-- `DriftEngine::cosine_similarity`: dot product over the product of norms,
guarded against zero norms, then rescaled from `[-1,1]` into `[0,1]` by
`(similarity + 1) / 2`. -/
noncomputable def cosine_similarity (a b : List ℝ) : ℝ :=
  let norm_a := normR a
  let norm_b := normR b
  if norm_a = 0 ∨ norm_b = 0 then 0
  else (dotList a b / (norm_a * norm_b) + 1) / 2

/-- `DriftEngine::classify_drift`: `s ≥ 0.8 → Stable`, `s ≥ 0.5 → Drifting`,
otherwise `Decayed`. -/
noncomputable def classify_drift (drift_score : ℝ) : DriftStatus :=
  if drift_score ≥ 0.8 then .Stable
  else if drift_score ≥ 0.5 then .Drifting
  else .Decayed

/-- The fields of `DriftScore` (from `src/domain.rs`) that the drift engine
computes; the random UUID, timestamp, and explanation string are omitted. -/
structure DriftScore where
  domain : String
  prompt_id : String
  model : String
  similarity_prev : ℝ
  drift_score : ℝ
  status : DriftStatus

/-- `DriftEngine::create_drift_score`: similarity from the embeddings,
drift `= 1 - similarity`, status classified from the similarity. -/
noncomputable def create_drift_score (domain prompt_id model : String)
    (current_embedding previous_embedding : List ℝ) : DriftScore :=
  let similarity := cosine_similarity current_embedding previous_embedding
  let drift := 1 - similarity
  { domain := domain
    prompt_id := prompt_id
    model := model
    similarity_prev := similarity
    drift_score := drift
    status := classify_drift similarity }

/-- `DriftEngine::calculate_ensemble_drift`: mean of the drifts, population
standard deviation, `mean + std_dev` when `std_dev > 0.2`, else the mean. -/
noncomputable def calculate_ensemble_drift (model_drifts : List ℝ) : ℝ :=
  if model_drifts = [] then 0
  else
    let mean := model_drifts.sum / (model_drifts.length : ℝ)
    let variance :=
      (model_drifts.map fun d => (d - mean) ^ 2).sum / (model_drifts.length : ℝ)
    let std_dev := Real.sqrt variance
    if std_dev > 0.2 then mean + std_dev else mean

/-- Mean of a list of reals (specification-side restatement). -/
noncomputable def meanR (l : List ℝ) : ℝ := l.sum / (l.length : ℝ)

/-- Population variance of a list of reals (specification-side restatement). -/
noncomputable def varR (l : List ℝ) : ℝ :=
  (l.map fun d => (d - meanR l) ^ 2).sum / (l.length : ℝ)

/-- Population standard deviation (specification-side restatement). -/
noncomputable def stddevR (l : List ℝ) : ℝ := Real.sqrt (varR l)

/-- Severity rank of a drift status: `Decayed < Drifting < Stable`. -/
def statusRank : DriftStatus → ℕ
  | .Decayed => 0
  | .Drifting => 1
  | .Stable => 2

/-- C2: classify_drift maps `≥ 0.8` to stable, `≥ 0.5` to drifting, anything
lower to decayed; it is monotonic in the similarity input, and similarity
`0.95` classifies stable, `0.5` drifting, `0.1` decayed. -/
theorem classify_drift_thresholds :
    (∀ s t : ℝ, s ≤ t → statusRank (classify_drift s) ≤ statusRank (classify_drift t)) ∧
    (∀ s : ℝ, 0.8 ≤ s → classify_drift s = .Stable) ∧
    (∀ s : ℝ, 0.5 ≤ s → s < 0.8 → classify_drift s = .Drifting) ∧
    (∀ s : ℝ, s < 0.5 → classify_drift s = .Decayed) ∧
    classify_drift 0.95 = .Stable ∧
    classify_drift 0.5 = .Drifting ∧
    classify_drift 0.1 = .Decayed := by
  have hstable : ∀ s : ℝ, 0.8 ≤ s → classify_drift s = .Stable := by
    intro s hs
    simp only [classify_drift, ge_iff_le]
    rw [if_pos hs]
  have hdrift : ∀ s : ℝ, 0.5 ≤ s → s < 0.8 → classify_drift s = .Drifting := by
    intro s hs hs'
    simp only [classify_drift, ge_iff_le]
    rw [if_neg (by linarith), if_pos hs]
  have hdecay : ∀ s : ℝ, s < 0.5 → classify_drift s = .Decayed := by
    intro s hs
    simp only [classify_drift, ge_iff_le]
    rw [if_neg (by linarith), if_neg (by linarith)]
  refine ⟨?_, hstable, hdrift, hdecay, ?_, ?_, ?_⟩
  · intro s t hst
    rcases le_or_lt 0.8 s with h8 | h8
    · rw [hstable s h8, hstable t (le_trans h8 hst)]
    · rcases le_or_lt 0.5 s with h5 | h5
      · rw [hdrift s h5 h8]
        rcases le_or_lt 0.8 t with t8 | t8
        · rw [hstable t t8]; simp [statusRank]
        · rw [hdrift t (le_trans h5 hst) t8]
      · rw [hdecay s h5]; simp [statusRank]
  · exact hstable _ (by norm_num)
  · exact hdrift _ (by norm_num) (by norm_num)
  · exact hdecay _ (by norm_num)

/-- Witness for C2 at concrete similarity inputs. -/
theorem classify_drift_thresholds_witness :
    classify_drift 0.95 = .Stable ∧ classify_drift 0.5 = .Drifting ∧
    classify_drift 0.1 = .Decayed :=
  ⟨classify_drift_thresholds.2.2.2.2.1,
   classify_drift_thresholds.2.2.2.2.2.1,
   classify_drift_thresholds.2.2.2.2.2.2⟩

/-! ### Cosine similarity bounds (Cauchy-Schwarz) -/

theorem sumSq_nonneg (l : List ℝ) : 0 ≤ sumSq l := by
  induction l with
  | nil => simp [sumSq]
  | cons x xs ih =>
    simp only [sumSq, List.map_cons, List.sum_cons] at *
    nlinarith [mul_self_nonneg x]

theorem sumSq_eq_range (l : List ℝ) :
    sumSq l = ∑ i ∈ Finset.range l.length, (l.getD i 0) ^ 2 := by
  induction l with
  | nil => simp [sumSq]
  | cons x xs ih =>
    simp only [sumSq, List.map_cons, List.sum_cons, List.length_cons] at *
    rw [Finset.sum_range_succ']
    simp only [List.getD_cons_succ, List.getD_cons_zero]
    rw [← ih]; ring

theorem dotList_eq_range (a b : List ℝ) :
    dotList a b =
      ∑ i ∈ Finset.range (min a.length b.length), a.getD i 0 * b.getD i 0 := by
  induction a generalizing b with
  | nil => simp [dotList]
  | cons x xs ih =>
    cases b with
    | nil => simp [dotList]
    | cons y ys =>
      simp only [dotList, List.zipWith_cons_cons, List.sum_cons, List.length_cons]
      rw [Nat.succ_min_succ, Finset.sum_range_succ']
      simp only [List.getD_cons_succ, List.getD_cons_zero]
      rw [← ih]; simp [dotList]; ring

theorem sum_range_sq_le_sumSq (a : List ℝ) (m : ℕ) (hm : m ≤ a.length) :
    (∑ i ∈ Finset.range m, (a.getD i 0) ^ 2) ≤ sumSq a := by
  rw [sumSq_eq_range]
  exact Finset.sum_le_sum_of_subset_of_nonneg
    (Finset.range_subset.mpr hm) (fun i _ _ => sq_nonneg _)

theorem dotList_sq_le (a b : List ℝ) :
    (dotList a b) ^ 2 ≤ sumSq a * sumSq b := by
  rw [dotList_eq_range]
  calc (∑ i ∈ Finset.range (min a.length b.length), a.getD i 0 * b.getD i 0) ^ 2
      ≤ (∑ i ∈ Finset.range (min a.length b.length), (a.getD i 0) ^ 2) *
        ∑ i ∈ Finset.range (min a.length b.length), (b.getD i 0) ^ 2 :=
        Finset.sum_mul_sq_le_sq_mul_sq _ _ _
    _ ≤ sumSq a * sumSq b := by
        apply mul_le_mul
        · exact sum_range_sq_le_sumSq a _ (min_le_left _ _)
        · exact sum_range_sq_le_sumSq b _ (min_le_right _ _)
        · exact Finset.sum_nonneg fun i _ => sq_nonneg _
        · exact sumSq_nonneg a

theorem dotList_bounds (a b : List ℝ) :
    -(normR a * normR b) ≤ dotList a b ∧ dotList a b ≤ normR a * normR b := by
  have hsq : (dotList a b) ^ 2 ≤ (normR a * normR b) ^ 2 := by
    rw [mul_pow, normR, normR, Real.sq_sqrt (sumSq_nonneg a), Real.sq_sqrt (sumSq_nonneg b)]
    exact dotList_sq_le a b
  exact abs_le_of_sq_le_sq' hsq (mul_nonneg (Real.sqrt_nonneg _) (Real.sqrt_nonneg _))

theorem cosine_similarity_mem (a b : List ℝ) :
    0 ≤ cosine_similarity a b ∧ cosine_similarity a b ≤ 1 := by
  unfold cosine_similarity
  by_cases hz : normR a = 0 ∨ normR b = 0
  · simp only [hz, if_true]; norm_num
  · simp only [hz, if_false]
    push_neg at hz
    have ha : 0 < normR a := lt_of_le_of_ne (Real.sqrt_nonneg _) (Ne.symm hz.1)
    have hb : 0 < normR b := lt_of_le_of_ne (Real.sqrt_nonneg _) (Ne.symm hz.2)
    have hab : 0 < normR a * normR b := mul_pos ha hb
    obtain ⟨hlo, hhi⟩ := dotList_bounds a b
    have h1 : dotList a b / (normR a * normR b) ≤ 1 := by
      rw [div_le_one hab]; exact hhi
    have h2 : -1 ≤ dotList a b / (normR a * normR b) := by
      rw [le_div_iff₀ hab]
      linarith
    constructor <;> [linarith; linarith]

/-- C1: for equal-length embeddings, the drift record has
`similarity_prev ∈ [0,1]`, `drift_score = 1 - similarity_prev` exactly,
and a non-negative drift score. -/
theorem create_drift_score_invariants (d p m : String) (cur prev : List ℝ)
    (hlen : cur.length = prev.length) :
    0 ≤ (create_drift_score d p m cur prev).similarity_prev ∧
    (create_drift_score d p m cur prev).similarity_prev ≤ 1 ∧
    (create_drift_score d p m cur prev).drift_score =
      1 - (create_drift_score d p m cur prev).similarity_prev ∧
    0 ≤ (create_drift_score d p m cur prev).drift_score := by
  obtain ⟨h0, h1⟩ := cosine_similarity_mem cur prev
  refine ⟨h0, h1, rfl, ?_⟩
  show (0 : ℝ) ≤ 1 - cosine_similarity cur prev
  linarith

/-- Witness for C1 at a concrete pair of equal-length embeddings. -/
theorem create_drift_score_invariants_witness :
    0 ≤ (create_drift_score "d" "p" "m" [1, 0] [0, 1]).similarity_prev ∧
    (create_drift_score "d" "p" "m" [1, 0] [0, 1]).similarity_prev ≤ 1 ∧
    (create_drift_score "d" "p" "m" [1, 0] [0, 1]).drift_score =
      1 - (create_drift_score "d" "p" "m" [1, 0] [0, 1]).similarity_prev ∧
    0 ≤ (create_drift_score "d" "p" "m" [1, 0] [0, 1]).drift_score :=
  create_drift_score_invariants "d" "p" "m" [1, 0] [0, 1] rfl

/-- C10: when either embedding has zero norm, cosine similarity is exactly 0
(the guarded division is never performed), and the drift record derived from
such a pair has similarity 0 and drift 1. -/
theorem cosine_similarity_zero_norm (a b : List ℝ) (hlen : a.length = b.length)
    (hz : normR a = 0 ∨ normR b = 0) :
    cosine_similarity a b = 0 ∧
    ∀ d p m, (create_drift_score d p m a b).similarity_prev = 0 ∧
      (create_drift_score d p m a b).drift_score = 1 := by
  have hcs : cosine_similarity a b = 0 := by
    unfold cosine_similarity
    simp only [hz, if_true]
  refine ⟨hcs, fun d p m => ⟨hcs, ?_⟩⟩
  show 1 - cosine_similarity a b = 1
  rw [hcs]; ring

/-- Witness for C10 at a concrete degenerate pair. -/
theorem cosine_similarity_zero_norm_witness :
    cosine_similarity [0, 0] [3, 4] = 0 ∧
    ∀ d p m, (create_drift_score d p m [0, 0] [3, 4]).similarity_prev = 0 ∧
      (create_drift_score d p m [0, 0] [3, 4]).drift_score = 1 :=
  cosine_similarity_zero_norm [0, 0] [3, 4] rfl
    (Or.inl (by simp [normR, sumSq]))

/-! ### Ensemble drift (C7) -/

/-- C7: for every non-empty drift list, `calculate_ensemble_drift` returns
`mean + stddev` when the population standard deviation exceeds `0.2` and
the mean alone otherwise; `[0.1, 0.1, 0.1]` yields `0.1` and `[0, 0, 0.9]`
yields `mean + stddev`. -/
theorem calculate_ensemble_drift_spec :
    (∀ l : List ℝ, l ≠ [] →
      calculate_ensemble_drift l =
        if stddevR l > 0.2 then meanR l + stddevR l else meanR l) ∧
    calculate_ensemble_drift [0.1, 0.1, 0.1] = 0.1 ∧
    calculate_ensemble_drift [0, 0, 0.9] =
      meanR [0, 0, 0.9] + stddevR [0, 0, 0.9] := by
  have hgen : ∀ l : List ℝ, l ≠ [] →
      calculate_ensemble_drift l =
        if stddevR l > 0.2 then meanR l + stddevR l else meanR l := by
    intro l hl
    simp only [calculate_ensemble_drift, meanR, varR, stddevR, if_neg hl]
  refine ⟨hgen, ?_, ?_⟩
  · have hm : meanR [0.1, 0.1, 0.1] = 0.1 := by
      simp [meanR]; norm_num
    have hv : varR [0.1, 0.1, 0.1] = 0 := by
      simp [varR, hm]
    have hs : stddevR [0.1, 0.1, 0.1] = 0 := by
      rw [stddevR, hv, Real.sqrt_zero]
    rw [hgen _ (by simp), if_neg (by rw [hs]; norm_num), hm]
  · have hm : meanR [0, 0, 0.9] = 0.3 := by
      simp [meanR]; norm_num
    have hv : varR [0, 0, 0.9] = 0.18 := by
      simp [varR, hm]; norm_num
    have hs : stddevR [0, 0, 0.9] > 0.2 := by
      rw [stddevR, hv]
      have := (Real.lt_sqrt (by norm_num : (0 : ℝ) ≤ 0.2)).mpr
        (by norm_num : (0.2 : ℝ) ^ 2 < 0.18)
      exact this
    rw [hgen _ (by simp), if_pos hs]

/-- Witness for C7 applied at a concrete non-empty list. -/
theorem calculate_ensemble_drift_spec_witness :
    calculate_ensemble_drift [(1 : ℝ)] =
      if stddevR [(1 : ℝ)] > 0.2 then meanR [(1 : ℝ)] + stddevR [(1 : ℝ)]
      else meanR [(1 : ℝ)] :=
  calculate_ensemble_drift_spec.1 [1] (by simp)

/-! ### Response normalizer (`src/normalizer.rs`) -/

/-- ASCII whitespace characters; on the ASCII texts modelled here this
coincides with Rust's `char::is_whitespace`. -/
def isWsChar (c : Char) : Bool :=
  c == ' ' || c == '\t' || c == '\n' || c == '\r'

/-- ASCII lowercasing; on the ASCII texts modelled here this coincides with
Rust's `str::to_lowercase`. -/
def toLowerChar (c : Char) : Char :=
  if 'A' ≤ c ∧ c ≤ 'Z' then Char.ofNat (c.toNat + 32) else c

/-- Whether a character list starts with the sequence `n`. -/
def startsWithSeq : List Char → List Char → Bool
  | _, [] => true
  | [], _ :: _ => false
  | a :: as, b :: bs => a == b && startsWithSeq as bs

/-- Whether a character list contains `n` as a contiguous subsequence
(Rust's `str::contains` with a string pattern). -/
def containsSeq (n : List Char) : List Char → Bool
  | [] => startsWithSeq [] n
  | c :: t => startsWithSeq (c :: t) n || containsSeq n t

/-- The fixed failure-indicator substrings of `classify_status`. -/
def malformed_indicators : List (List Char) :=
  ["error".toList, "exception".toList, "failed".toList, "invalid".toList,
   "unavailable".toList, "timeout".toList]

/-- `classify_status`: `empty` for texts shorter than 10 characters,
`malformed` for short (< 100) texts containing a failure indicator
(case-insensitively), `valid` otherwise. -/
def classify_status (text : List Char) : String :=
  if text = [] ∨ text.length < 10 then "empty"
  else
    let text_lower := text.map toLowerChar
    if malformed_indicators.any fun indicator => containsSeq indicator text_lower then
      if text.length < 100 then "malformed" else "valid"
    else "valid"

/-- Whether the lowercased text contains one of the failure indicators. -/
def hasIndicator (text : List Char) : Bool :=
  malformed_indicators.any fun indicator =>
    containsSeq indicator (text.map toLowerChar)

/-- C5 counterexample: the five-character text `error` contains a failure
indicator and is shorter than 100 characters, yet `classify_status` returns
`empty`, not `malformed` — the length-10 guard takes precedence. -/
theorem classify_status_counterexample :
    hasIndicator "error".toList = true ∧
    ("error".toList).length < 100 ∧
    classify_status "error".toList ≠ "malformed" ∧
    classify_status "error".toList = "empty" := by decide

/-- C5 amended: `empty` exactly when shorter than 10 characters; `malformed`
exactly when at least 10 characters, containing an indicator, and shorter
than 100 characters; `valid` otherwise — so a text of 100 or more characters
containing an indicator is still `valid`. -/
theorem classify_status_amended (text : List Char) :
    (classify_status text = "empty" ↔ text.length < 10) ∧
    (classify_status text = "malformed" ↔
      10 ≤ text.length ∧ hasIndicator text = true ∧ text.length < 100) ∧
    (classify_status text = "valid" ↔
      10 ≤ text.length ∧ (hasIndicator text = false ∨ 100 ≤ text.length)) := by
  by_cases h0 : text = [] ∨ text.length < 10
  · have h10 : text.length < 10 := by
      rcases h0 with h | h
      · simp [h]
      · exact h
    simp only [classify_status, if_pos h0]
    refine ⟨⟨fun _ => h10, fun _ => trivial⟩, ⟨?_, ?_⟩, ⟨?_, ?_⟩⟩
    · intro h; exact absurd h (by decide)
    · rintro ⟨hge, -⟩; omega
    · intro h; exact absurd h (by decide)
    · rintro ⟨hge, -⟩; omega
  · have h10 : 10 ≤ text.length := by
      push_neg at h0; omega
    simp only [classify_status, if_neg h0]
    by_cases hind : malformed_indicators.any fun indicator =>
        containsSeq indicator (text.map toLowerChar)
    · have hind' : hasIndicator text = true := hind
      simp only [if_pos hind]
      by_cases h100 : text.length < 100
      · simp only [if_pos h100]
        refine ⟨⟨?_, ?_⟩, ⟨fun _ => ⟨h10, hind', h100⟩, fun _ => trivial⟩, ⟨?_, ?_⟩⟩
        · intro h; exact absurd h (by decide)
        · intro h; omega
        · intro h; exact absurd h (by decide)
        · rintro ⟨-, hv | hv⟩
          · rw [hind'] at hv; exact absurd hv (by decide)
          · omega
      · simp only [if_neg h100]
        refine ⟨⟨?_, ?_⟩, ⟨?_, ?_⟩, ⟨fun _ => ⟨h10, Or.inr (by omega)⟩, fun _ => trivial⟩⟩
        · intro h; exact absurd h (by decide)
        · intro h; omega
        · intro h; exact absurd h (by decide)
        · rintro ⟨-, -, h⟩; omega
    · have hind' : hasIndicator text = false := by
        simpa [hasIndicator] using hind
      simp only [if_neg hind]
      refine ⟨⟨?_, ?_⟩, ⟨?_, ?_⟩, ⟨fun _ => ⟨h10, Or.inl hind'⟩, fun _ => trivial⟩⟩
      · intro h; exact absurd h (by decide)
      · intro h; omega
      · intro h; exact absurd h (by decide)
      · rintro ⟨-, h, -⟩; rw [hind'] at h; exact absurd h (by decide)

/-- Witness for C5 (amended) at a concrete text. -/
theorem classify_status_amended_witness :
    classify_status "a perfectly ordinary reply".toList = "valid" ↔
      10 ≤ ("a perfectly ordinary reply".toList).length ∧
      (hasIndicator "a perfectly ordinary reply".toList = false ∨
        100 ≤ ("a perfectly ordinary reply".toList).length) :=
  (classify_status_amended "a perfectly ordinary reply".toList).2.2

/-! ### Answer-level drift comparison (C4) -/

/-- Segments of a character list split at characters satisfying `p`,
keeping empty segments (the splitting primitive underlying both
`split_whitespace` and `lines`). -/
def splitPred (p : Char → Bool) (l : List Char) : List (List Char) :=
  l.foldr
    (fun c acc =>
      if p c then [] :: acc
      else
        match acc with
        | [] => [[c]]
        | h :: r => (c :: h) :: r)
    [[]]

/-- Whitespace tokens of a text (Rust `split_whitespace`): split at
whitespace and discard the empty segments. -/
def wsTokens (l : List Char) : List (List Char) :=
  (splitPred isWsChar l).filter (· ≠ [])

/-- Jaccard similarity of the whitespace-tokenized word sets of two texts:
1 if both token sets are empty, 0 if exactly one is empty, otherwise
intersection size over union size. -/
def jaccard_similarity (a b : List Char) : ℚ :=
  let ta := (wsTokens a).dedup
  let tb := (wsTokens b).dedup
  if ta = [] ∧ tb = [] then 1
  else if ta = [] ∨ tb = [] then 0
  else ((ta.inter tb).length : ℚ) / ((ta.union tb).length : ℚ)

/-- Result of one answer-level drift comparison. -/
structure DriftCompareResult where
  status : DriftStatus
  similarity : ℚ
  drift : ℚ
deriving DecidableEq, Repr

/-- Modelled from the spec: the answer-level drift comparison state machine
of the drift engine (short current answer, missing or short baseline,
lexical Jaccard fallback, drift-threshold classification with the default
thresholds stable < 0.3 and decayed ≥ 0.7). The Rust sources contain only
the embedding-level drift engine; the answer-level comparison the spec
describes is not under `src/`. -/
def drift_compare (current : List Char) (baseline : Option (List Char)) :
    DriftCompareResult :=
  if current.length < 10 then ⟨.Decayed, 0, 1⟩
  else
    match baseline with
    | none => ⟨.Stable, 1, 0⟩
    | some base =>
      if base.length < 10 then ⟨.Stable, 1, 0⟩
      else
        let similarity := jaccard_similarity current base
        let drift := 1 - similarity
        let status :=
          if drift < 0.3 then DriftStatus.Stable
          else if drift ≥ 0.7 then DriftStatus.Decayed
          else DriftStatus.Drifting
        ⟨status, similarity, drift⟩

/-- C4: a current answer shorter than 10 characters always classifies
decayed with similarity 0 and drift 1, regardless of the baseline. -/
theorem drift_compare_short_current (current : List Char)
    (baseline : Option (List Char)) (h : current.length < 10) :
    (drift_compare current baseline).status = .Decayed ∧
    (drift_compare current baseline).similarity = 0 ∧
    (drift_compare current baseline).drift = 1 := by
  simp [drift_compare, h]

/-- Witness for C4: a five-character answer against a long baseline. -/
theorem drift_compare_short_current_witness :
    (drift_compare "short".toList (some "a sufficiently long baseline answer".toList)).status = .Decayed ∧
    (drift_compare "short".toList (some "a sufficiently long baseline answer".toList)).similarity = 0 ∧
    (drift_compare "short".toList (some "a sufficiently long baseline answer".toList)).drift = 1 :=
  drift_compare_short_current "short".toList
    (some "a sufficiently long baseline answer".toList) (by decide)

/-! ### Per-provider rate limiting
(`services/sophisticated-runner-rust/src/ai_providers.rs`) -/

/-- `AIProviderManager::apply_rate_limiting`, modelled over millisecond
instants: given the entry instant `now` and the recorded last-call instant,
returns the admission instant (entry plus any pacing sleep) and the new
recorded instant. The code records `now` — the instant at entry, captured
before the sleep — not the admission instant. -/
def apply_rate_limiting (rate_limit_per_minute : ℕ) (now : ℕ)
    (last_request : Option ℕ) : ℕ × ℕ :=
  match last_request with
  | none => (now, now)
  | some last =>
    let min_delay_ms := 60000 / rate_limit_per_minute
    let elapsed := now - last
    if elapsed < min_delay_ms then (now + (min_delay_ms - elapsed), now)
    else (now, now)

/-- Admission instants of a sequence of calls to one provider, each entering
the rate-limiting check at the given instant. -/
def rateLimitTrace (rate_limit_per_minute : ℕ) :
    List ℕ → Option ℕ → List ℕ
  | [], _ => []
  | e :: es, last =>
    let step := apply_rate_limiting rate_limit_per_minute e last
    step.1 :: rateLimitTrace rate_limit_per_minute es (some step.2)

/-- C8 counterexample: with a rate limit of 60 per minute (1000 ms minimum
delay), the realizable entry sequence 0, 1, 1000 — each entry no earlier
than the previous admission — is admitted at 0, 1000, 1001: the second and
third admissions are only 1 ms apart, far less than 1000 ms, because the
recorded last-call instant is the pre-sleep entry instant. -/
theorem rate_limiting_counterexample :
    60000 / 60 = 1000 ∧
    rateLimitTrace 60 [0, 1, 1000] none = [0, 1000, 1001] ∧
    (1 : ℕ) ≥ 0 ∧ (1000 : ℕ) ≥ 1000 ∧
    1001 - 1000 < 1000 := by decide

theorem apply_rate_limiting_step (rate e last : ℕ) (hle : last ≤ e) :
    last + 60000 / rate ≤ (apply_rate_limiting rate e (some last)).1 ∧
    (apply_rate_limiting rate e (some last)).2 = e ∧
    (e - last < 60000 / rate →
      (apply_rate_limiting rate e (some last)).1 =
        e + (60000 / rate - (e - last))) := by
  simp only [apply_rate_limiting]
  by_cases h : e - last < 60000 / rate
  · rw [if_pos h]
    exact ⟨by omega, rfl, fun _ => rfl⟩
  · rw [if_neg h]
    exact ⟨by omega, rfl, fun hc => absurd hc h⟩

/-- C8 amended: when less than `60000 / rate_limit_per_minute` ms have
elapsed since the provider's recorded last call, the orchestrator sleeps
exactly the remainder; and each call is admitted no earlier than
`60000 / rate_limit_per_minute` ms after the previous call's recorded entry
instant (not after its admission instant — consecutive admissions themselves
can be closer together, as the counterexample shows). -/
theorem rate_limiting_amended (rate : ℕ) :
    (∀ e last : ℕ, last ≤ e → e - last < 60000 / rate →
      (apply_rate_limiting rate e (some last)).1 =
        e + (60000 / rate - (e - last))) ∧
    (∀ (es : List ℕ) (i : ℕ), es.Chain' (· ≤ ·) → i + 1 < es.length →
      es.getD i 0 + 60000 / rate ≤ (rateLimitTrace rate es none).getD (i + 1) 0) := by
  constructor
  · intro e last hle hlt
    exact (apply_rate_limiting_step rate e last hle).2.2 hlt
  · have key : ∀ (es : List ℕ) (last : Option ℕ) (i : ℕ), es.Chain' (· ≤ ·) →
        i + 1 < es.length →
        es.getD i 0 + 60000 / rate ≤ (rateLimitTrace rate es last).getD (i + 1) 0 := by
      intro es
      induction es with
      | nil => intro _ i _ h; simp at h
      | cons e es ih =>
        intro last i hchain hi
        cases es with
        | nil => simp at hi
        | cons e' es' =>
          have hch' : (e' :: es').Chain' (· ≤ ·) := hchain.tail
          have hee' : e ≤ e' := List.chain'_cons.mp hchain |>.1
          have hrec : (apply_rate_limiting rate e last).2 = e := by
            cases last with
            | none => rfl
            | some l =>
              simp only [apply_rate_limiting]
              split <;> rfl
          have hunfold : rateLimitTrace rate (e :: e' :: es') last =
              (apply_rate_limiting rate e last).1 ::
                rateLimitTrace rate (e' :: es')
                  (some (apply_rate_limiting rate e last).2) := rfl
          cases i with
          | zero =>
            rw [hunfold, hrec]
            simp only [List.getD_cons_zero, List.getD_cons_succ]
            have hunfold' : rateLimitTrace rate (e' :: es') (some e) =
                (apply_rate_limiting rate e' (some e)).1 ::
                  rateLimitTrace rate es'
                    (some (apply_rate_limiting rate e' (some e)).2) := rfl
            rw [hunfold']
            simp only [List.getD_cons_zero]
            exact (apply_rate_limiting_step rate e' e hee').1
          | succ j =>
            rw [hunfold]
            simp only [List.getD_cons_succ]
            exact ih (some (apply_rate_limiting rate e last).2) j hch'
              (by simpa using hi)
    intro es i hchain hi
    exact key es none i hchain hi

/-- Witness for C8 (amended) at a concrete two-call trace. -/
theorem rate_limiting_amended_witness :
    ([0, 5] : List ℕ).getD 0 0 + 60000 / 60 ≤
      (rateLimitTrace 60 [0, 5] none).getD 1 0 :=
  (rate_limiting_amended 60).2 [0, 5] 0
    (List.chain'_pair.mpr (by norm_num)) (by decide)

/-! ### Batch orchestrator (`_quarantine/rust/services/crawler/src/crawler.rs`) -/

/-- The `crawl_batches` row fields written when the batch completes. -/
structure BatchRow where
  status : String
  domains_processed : ℕ
  total_api_calls : ℕ
  success_count : ℕ
  error_count : ℕ
deriving DecidableEq, Repr

/-- Tallies (total calls, successes, failures) over a list of chunk results;
`true` stands for a task that returned `Ok`. -/
def tallies (chunks : List (List Bool)) : ℕ × ℕ × ℕ :=
  ((chunks.map List.length).sum,
   (chunks.map fun c => c.countP id).sum,
   (chunks.map fun c => c.countP fun b => !b).sum)

/-- The chunk loop of `CrawlerOrchestrator::run`: process one chunk of
subjects, add its results to the tallies, then stop (`break`) if the elapsed
seconds after `k` chunks exceed the hard SLA deadline. `elapsedAfter k` is
the wall-clock time observed after the `k`-th chunk; the soft-deadline check
only logs and is omitted. -/
def crawlLoop (sla_max_secs : ℕ) (elapsedAfter : ℕ → ℕ) :
    List (List Bool) → ℕ → ℕ × ℕ × ℕ → ℕ × ℕ × ℕ
  | [], _, acc => acc
  | c :: rest, k, (total, succ, fail) =>
    let total := total + c.length
    let succ := succ + c.countP id
    let fail := fail + c.countP fun b => !b
    if sla_max_secs < elapsedAfter (k + 1) then (total, succ, fail)
    else crawlLoop sla_max_secs elapsedAfter rest (k + 1) (total, succ, fail)

/-- `CrawlerOrchestrator::run`: run the chunk loop, then unconditionally
update the batch row with status `completed` and the accumulated tallies
(the code records the full fetched domain count as `domains_processed`). -/
def crawler_run (domains_count sla_max_secs : ℕ) (elapsedAfter : ℕ → ℕ)
    (chunks : List (List Bool)) : BatchRow :=
  let acc := crawlLoop sla_max_secs elapsedAfter chunks 0 (0, 0, 0)
  { status := "completed"
    domains_processed := domains_count
    total_api_calls := acc.1
    success_count := acc.2.1
    error_count := acc.2.2 }

/-- The chunks the loop actually processes: everything up to and including
the first chunk after which the hard deadline is crossed. -/
def takeUntilBreach (sla_max_secs : ℕ) (elapsedAfter : ℕ → ℕ) :
    List (List Bool) → ℕ → List (List Bool)
  | [], _ => []
  | c :: rest, k =>
    if sla_max_secs < elapsedAfter (k + 1) then [c]
    else c :: takeUntilBreach sla_max_secs elapsedAfter rest (k + 1)

theorem crawlLoop_eq_takeUntilBreach (slaMax : ℕ) (el : ℕ → ℕ) :
    ∀ (cs : List (List Bool)) (k t s f : ℕ),
      crawlLoop slaMax el cs k (t, s, f) =
        (t + (tallies (takeUntilBreach slaMax el cs k)).1,
         s + (tallies (takeUntilBreach slaMax el cs k)).2.1,
         f + (tallies (takeUntilBreach slaMax el cs k)).2.2) := by
  intro cs
  induction cs with
  | nil => intro k t s f; simp [crawlLoop, takeUntilBreach, tallies]
  | cons c rest ih =>
    intro k t s f
    rw [show crawlLoop slaMax el (c :: rest) k (t, s, f) =
        (if slaMax < el (k + 1)
         then (t + c.length, s + c.countP id, f + c.countP fun b => !b)
         else crawlLoop slaMax el rest (k + 1)
           (t + c.length, s + c.countP id, f + c.countP fun b => !b)) from rfl]
    have hunfold : takeUntilBreach slaMax el (c :: rest) k =
        (if slaMax < el (k + 1) then [c]
         else c :: takeUntilBreach slaMax el rest (k + 1)) := rfl
    by_cases h : slaMax < el (k + 1)
    · rw [if_pos h, hunfold, if_pos h]
      simp [tallies]
    · rw [if_neg h, ih (k + 1), hunfold, if_neg h]
      simp only [tallies, List.map_cons, List.sum_cons, Prod.mk.injEq]
      refine ⟨by omega, by omega, by omega⟩

theorem takeUntilBreach_eq_take (slaMax : ℕ) (el : ℕ → ℕ) (k₀ : ℕ)
    (hbr : slaMax < el (k₀ + 1)) :
    ∀ (cs : List (List Bool)) (k : ℕ), k ≤ k₀ → k₀ < k + cs.length →
      (∀ j, k ≤ j → j < k₀ → ¬ slaMax < el (j + 1)) →
      takeUntilBreach slaMax el cs k = cs.take (k₀ - k + 1) := by
  intro cs
  induction cs with
  | nil => intro k _ hlt _; simp at hlt; omega
  | cons c rest ih =>
    intro k hk hlen hmin
    rcases eq_or_lt_of_le hk with heq | hlt
    · subst heq
      simp only [takeUntilBreach, if_pos hbr, Nat.sub_self]
      rfl
    · have hnotbr : ¬ slaMax < el (k + 1) := hmin k le_rfl hlt
      simp only [takeUntilBreach, if_neg hnotbr]
      rw [ih (k + 1) hlt (by simp at hlen ⊢; omega)
        (fun j hj1 hj2 => hmin j (by omega) hj2)]
      have : k₀ - k + 1 = (k₀ - (k + 1) + 1) + 1 := by omega
      rw [this]
      rfl

/-- C6: when the hard SLA deadline is crossed after the chunk at index `k₀`
(the first such chunk), the orchestrator stops submitting further chunks —
the batch run equals the run over only the first `k₀ + 1` chunks — and the
batch row is still recorded with status `completed` and the
success/failure tallies accumulated so far. -/
theorem crawler_run_deadline (dc slaMax : ℕ) (el : ℕ → ℕ)
    (chunks : List (List Bool)) (k₀ : ℕ)
    (hk : k₀ < chunks.length) (hbr : slaMax < el (k₀ + 1))
    (hmin : ∀ j, j < k₀ → ¬ slaMax < el (j + 1)) :
    crawler_run dc slaMax el chunks =
      crawler_run dc slaMax el (chunks.take (k₀ + 1)) ∧
    (crawler_run dc slaMax el chunks).status = "completed" ∧
    ((crawler_run dc slaMax el chunks).total_api_calls,
     (crawler_run dc slaMax el chunks).success_count,
     (crawler_run dc slaMax el chunks).error_count) =
      tallies (chunks.take (k₀ + 1)) := by
  have h1 : takeUntilBreach slaMax el chunks 0 = chunks.take (k₀ + 1) := by
    have := takeUntilBreach_eq_take slaMax el k₀ hbr chunks 0
      (Nat.zero_le _) (by omega) (fun j _ hj2 => hmin j hj2)
    simpa using this
  have h2 : takeUntilBreach slaMax el (chunks.take (k₀ + 1)) 0 =
      chunks.take (k₀ + 1) := by
    have hlen : k₀ < (chunks.take (k₀ + 1)).length := by
      simp [List.length_take]; omega
    have := takeUntilBreach_eq_take slaMax el k₀ hbr (chunks.take (k₀ + 1)) 0
      (Nat.zero_le _) (by omega) (fun j _ hj2 => hmin j hj2)
    simpa [List.take_take] using this
  have hloop : ∀ cs : List (List Bool),
      crawlLoop slaMax el cs 0 (0, 0, 0) =
        ((tallies (takeUntilBreach slaMax el cs 0)).1,
         (tallies (takeUntilBreach slaMax el cs 0)).2.1,
         (tallies (takeUntilBreach slaMax el cs 0)).2.2) := by
    intro cs
    rw [crawlLoop_eq_takeUntilBreach]
    simp
  refine ⟨?_, rfl, ?_⟩
  · unfold crawler_run
    rw [hloop chunks, hloop (chunks.take (k₀ + 1)), h1, h2]
  · unfold crawler_run
    rw [hloop chunks, h1]

/-- Witness for C6: three chunks, the deadline crossed after the second, a
concrete completed row carrying the tallies of the first two chunks only. -/
theorem crawler_run_deadline_witness :
    crawler_run 30 150 (fun k => 100 * k) [[true, false], [true], [true]] =
      crawler_run 30 150 (fun k => 100 * k)
        (([[true, false], [true], [true]] : List (List Bool)).take 2) ∧
    (crawler_run 30 150 (fun k => 100 * k)
      [[true, false], [true], [true]]).status = "completed" ∧
    ((crawler_run 30 150 (fun k => 100 * k)
        [[true, false], [true], [true]]).total_api_calls,
     (crawler_run 30 150 (fun k => 100 * k)
        [[true, false], [true], [true]]).success_count,
     (crawler_run 30 150 (fun k => 100 * k)
        [[true, false], [true], [true]]).error_count) =
      tallies (([[true, false], [true], [true]] : List (List Bool)).take 2) :=
  crawler_run_deadline 30 150 (fun k => 100 * k)
    [[true, false], [true], [true]] 1 (by decide) (by norm_num)
    (fun j hj => by
      have : j = 0 := by omega
      subst this
      norm_num)

/-! ### Ranking engine (`src/ranking.rs`) -/

/-- One subject as seen through the store: domain name, number of completed
observations, count of `valid` responses (`count_citations`), and average of
its stored drift scores (`none` models SQL `AVG` over zero rows). -/
structure SubjectRow where
  domain : String
  observations : ℕ
  citations : ℤ
  drift_avg : Option ℚ

/-- `count_citations`: the count of `valid`-status stored responses. -/
def count_citations (r : SubjectRow) : ℤ := r.citations

/-- `get_avg_drift`: `AVG(drift_score)` with `unwrap_or(0.0)` on NULL. -/
def get_avg_drift (r : SubjectRow) : ℚ := r.drift_avg.getD 0

/-- Modelled from the spec: the store query `SELECT domain FROM domains
WHERE status = 'completed' LIMIT $1`. A domain reaches status `completed`
only once it has at least one completed observation, so the fetch returns
only subjects with observations, up to the limit. -/
def fetch_completed_domains (rows : List SubjectRow) (limit : ℕ) :
    List SubjectRow :=
  (rows.filter fun r => 0 < r.observations).take limit

/-- The ranking output row (`BrandScore`). -/
structure BrandScore where
  domain : String
  rank : ℤ
  score : ℚ
  citation_count : ℤ
  avg_drift : ℚ
  stability_score : ℚ
deriving DecidableEq, Repr

/-- The score row built for one fetched domain, before rank assignment
(`rank` starts at 0 and is assigned after sorting). -/
def mkBrandScore (r : SubjectRow) : BrandScore :=
  let citation_count := count_citations r
  let avg_drift := get_avg_drift r
  { domain := r.domain
    rank := 0
    score := (citation_count : ℚ) * 0.7 + (1 - avg_drift) * 100 * 0.3
    citation_count := citation_count
    avg_drift := avg_drift
    stability_score := (1 - avg_drift) * 100 }

/-- The descending-score comparator: `scores.sort_by` with
`b.score.partial_cmp(&a.score)` orders `a` before `b` iff
`b.score ≤ a.score`. -/
def rankOrder (a b : BrandScore) : Prop := b.score ≤ a.score

instance : DecidableRel rankOrder :=
  fun a b => inferInstanceAs (Decidable (b.score ≤ a.score))

instance : IsTotal BrandScore rankOrder :=
  ⟨fun a b => le_total b.score a.score⟩

instance : IsTrans BrandScore rankOrder :=
  ⟨fun _ _ _ h1 h2 => le_trans h2 h1⟩

/-- The score rows sorted by score descending. Rust's `sort_by` is a stable
sort; it is modelled by the stable insertion sort. -/
def sortedScores (rows : List SubjectRow) (limit : ℕ) : List BrandScore :=
  ((fetch_completed_domains rows limit).map mkBrandScore).insertionSort rankOrder

/-- The enumerate loop (`for (i, score) in scores.iter_mut().enumerate()`)
assigning rank `i + 1` by sorted position. -/
def assignRanks : List BrandScore → ℕ → List BrandScore
  | [], _ => []
  | b :: rest, i => { b with rank := (i : ℤ) + 1 } :: assignRanks rest (i + 1)

/-- `compute_rankings`: build scores for the fetched completed domains, sort
by score descending, then assign dense 1-based ranks by sorted position. -/
def compute_rankings (rows : List SubjectRow) (limit : ℕ) : List BrandScore :=
  assignRanks (sortedScores rows limit) 0

theorem assignRanks_length :
    ∀ (l : List BrandScore) (i : ℕ), (assignRanks l i).length = l.length := by
  intro l
  induction l with
  | nil => intro i; rfl
  | cons b rest ih => intro i; simp [assignRanks, ih]

theorem assignRanks_map_rank :
    ∀ (l : List BrandScore) (i : ℕ),
      (assignRanks l i).map (fun b => b.rank) =
        (List.range l.length).map fun j => ((i + j : ℕ) : ℤ) + 1 := by
  intro l
  induction l with
  | nil => intro i; simp [assignRanks]
  | cons b rest ih =>
    intro i
    simp only [assignRanks, List.map_cons, List.length_cons,
      List.range_succ_eq_map, List.map_map, List.cons.injEq]
    refine ⟨by simp, ?_⟩
    rw [ih (i + 1)]
    apply List.map_congr_left
    intro j _
    simp only [Function.comp_apply]
    push_cast
    ring

theorem assignRanks_fields :
    ∀ (l : List BrandScore) (i : ℕ) (b : BrandScore),
      b ∈ assignRanks l i →
      ∃ b' ∈ l, b.domain = b'.domain ∧ b.score = b'.score ∧
        b.citation_count = b'.citation_count ∧ b.avg_drift = b'.avg_drift := by
  intro l
  induction l with
  | nil => intro i b h; simp [assignRanks] at h
  | cons c rest ih =>
    intro i b h
    simp only [assignRanks, List.mem_cons] at h
    rcases h with h | h
    · exact ⟨c, List.mem_cons_self c rest, by simp [h]⟩
    · obtain ⟨b', hb', hfields⟩ := ih (i + 1) b h
      exact ⟨b', List.mem_cons_of_mem c hb', hfields⟩

theorem assignRanks_map_score :
    ∀ (l : List BrandScore) (i : ℕ),
      (assignRanks l i).map (fun b => b.score) = l.map fun b => b.score := by
  intro l
  induction l with
  | nil => intro i; simp [assignRanks]
  | cons b rest ih =>
    intro i
    simp only [assignRanks, List.map_cons, ih (i + 1)]

/-- C3: every ranked subject carries the composite score
`0.7 × citations + 0.3 × 100 × (1 − avg_drift)`; the output is sorted by
score descending; ranks are the dense contiguous sequence `1..N` by sorted
position; and every output entry comes from a fetched subject with at least
one observation (zero-observation subjects are excluded). -/
theorem compute_rankings_spec (rows : List SubjectRow) (limit : ℕ) :
    (∀ b ∈ compute_rankings rows limit,
      b.score = 0.7 * (b.citation_count : ℚ) + 0.3 * (100 * (1 - b.avg_drift))) ∧
    ((compute_rankings rows limit).map fun b => b.score).Sorted (· ≥ ·) ∧
    ((compute_rankings rows limit).map fun b => b.rank) =
      (List.range (compute_rankings rows limit).length).map
        (fun i : ℕ => (i : ℤ) + 1) ∧
    (∀ b ∈ compute_rankings rows limit,
      ∃ r ∈ rows, 0 < r.observations ∧ b.domain = r.domain ∧
        b.citation_count = count_citations r ∧ b.avg_drift = get_avg_drift r) := by
  have hmem : ∀ b ∈ compute_rankings rows limit,
      ∃ r ∈ rows, 0 < r.observations ∧ b.domain = r.domain ∧
        b.citation_count = count_citations r ∧ b.avg_drift = get_avg_drift r ∧
        b.score = (count_citations r : ℚ) * 0.7 +
          (1 - get_avg_drift r) * 100 * 0.3 := by
    intro b hb
    obtain ⟨b', hb', hdom, hscore, hcit, havg⟩ :=
      assignRanks_fields _ 0 b hb
    have hb'' : b' ∈ (fetch_completed_domains rows limit).map mkBrandScore :=
      (List.mem_insertionSort rankOrder).mp hb'
    rw [List.mem_map] at hb''
    obtain ⟨r, hr, rfl⟩ := hb''
    have hr' : r ∈ (rows.filter fun s => 0 < s.observations) :=
      List.mem_of_mem_take hr
    rw [List.mem_filter] at hr'
    refine ⟨r, hr'.1, by simpa using hr'.2, ?_, ?_, ?_, ?_⟩
    · simpa [mkBrandScore] using hdom
    · simpa [mkBrandScore] using hcit
    · simpa [mkBrandScore] using havg
    · simpa [mkBrandScore] using hscore
  refine ⟨?_, ?_, ?_, ?_⟩
  · intro b hb
    obtain ⟨r, -, -, -, hcit, havg, hscore⟩ := hmem b hb
    rw [hscore, hcit, havg]
    ring
  · have hpair : (sortedScores rows limit).Pairwise rankOrder :=
      List.sorted_insertionSort rankOrder
        ((fetch_completed_domains rows limit).map mkBrandScore)
    show ((assignRanks (sortedScores rows limit) 0).map fun b => b.score).Sorted (· ≥ ·)
    rw [assignRanks_map_score]
    exact (List.pairwise_map).mpr (hpair.imp fun h => h)
  · show ((assignRanks (sortedScores rows limit) 0).map fun b => b.rank) = _
    rw [assignRanks_map_rank]
    show _ = (List.range (assignRanks (sortedScores rows limit) 0).length).map _
    rw [assignRanks_length]
    apply List.map_congr_left
    intro j _
    simp
  · intro b hb
    obtain ⟨r, hr, hobs, hdom, hcit, havg, -⟩ := hmem b hb
    exact ⟨r, hr, hobs, hdom, hcit, havg⟩

/-- Witness for C3: the spec's example — subjects with citations 10, 5, 0,
average drifts 0.1, 0.1, 0.5, the third with zero observations — yields
exactly two ranked entries, the higher-citation subject ranked first. -/
theorem compute_rankings_spec_witness :
    ((compute_rankings
        [⟨"subjectA", 3, 10, some 0.1⟩, ⟨"subjectB", 2, 5, some 0.1⟩,
         ⟨"subjectC", 0, 0, some 0.5⟩] 50).map fun b => b.score).Sorted (· ≥ ·) ∧
    ((compute_rankings
        [⟨"subjectA", 3, 10, some 0.1⟩, ⟨"subjectB", 2, 5, some 0.1⟩,
         ⟨"subjectC", 0, 0, some 0.5⟩] 50).map fun b => (b.citation_count, b.rank)) =
      [(10, 1), (5, 2)] :=
  ⟨(compute_rankings_spec
      [⟨"subjectA", 3, 10, some 0.1⟩, ⟨"subjectB", 2, 5, some 0.1⟩,
       ⟨"subjectC", 0, 0, some 0.5⟩] 50).2.1,
   by norm_num [compute_rankings, sortedScores, fetch_completed_domains,
     mkBrandScore, assignRanks, count_citations, get_avg_drift,
     List.insertionSort, List.orderedInsert, rankOrder]⟩

/-! ### Response normalization pipeline (`src/normalizer.rs`)

`normalize_response` extracts the answer text from a raw payload
(`extract_content`, which first tries to parse the payload as JSON the way
`serde_json::from_str` does), cleans it (`clean_text`), and classifies it
(`classify_status`). The JSON data model and parser below embed the
behaviour of `serde_json` needed by `extract_content`. -/

/-- JSON values as `serde_json::Value`; numbers keep their raw token, since
`extract_content` never reads a numeric value. -/
inductive Json where
  | null
  | bool (b : Bool)
  | num (raw : List Char)
  | str (s : List Char)
  | arr (elems : List Json)
  | obj (fields : List (List Char × Json))

/-- JSON insignificant whitespace. -/
def isJsonWs (c : Char) : Bool :=
  c == ' ' || c == '\t' || c == '\n' || c == '\r'

/-- Skip JSON whitespace. -/
def skipJsonWs (l : List Char) : List Char := l.dropWhile isJsonWs

/-- Value of one hex digit. -/
def hexVal (c : Char) : Option ℕ :=
  if '0' ≤ c ∧ c ≤ '9' then some (c.toNat - '0'.toNat)
  else if 'a' ≤ c ∧ c ≤ 'f' then some (c.toNat - 'a'.toNat + 10)
  else if 'A' ≤ c ∧ c ≤ 'F' then some (c.toNat - 'A'.toNat + 10)
  else none

/-- Decimal digit test. -/
def isDigitChar (c : Char) : Bool := '0' ≤ c && c ≤ '9'

/-- Body of a JSON string after the opening quote: returns the decoded
content and the input after the closing quote. Unescaped control characters
are rejected, escapes are decoded, `\uXXXX` becomes the code point
(surrogate pairs are not recombined). -/
def parseStringBody : ℕ → List Char → Option (List Char × List Char)
  | 0, _ => none
  | _ + 1, [] => none
  | fuel + 1, c :: rest =>
    if c == '"' then some ([], rest)
    else if c == '\\' then
      match rest with
      | [] => none
      | e :: rest2 =>
        let dec : Option (Char × List Char) :=
          if e == '"' then some ('"', rest2)
          else if e == '\\' then some ('\\', rest2)
          else if e == '/' then some ('/', rest2)
          else if e == 'b' then some ('\x08', rest2)
          else if e == 'f' then some ('\x0C', rest2)
          else if e == 'n' then some ('\n', rest2)
          else if e == 'r' then some ('\r', rest2)
          else if e == 't' then some ('\t', rest2)
          else
            match e == 'u', rest2 with
            | true, h1 :: h2 :: h3 :: h4 :: rest3 =>
              match hexVal h1, hexVal h2, hexVal h3, hexVal h4 with
              | some v1, some v2, some v3, some v4 =>
                some (Char.ofNat (((v1 * 16 + v2) * 16 + v3) * 16 + v4), rest3)
              | _, _, _, _ => none
            | _, _ => none
        match dec with
        | some (d, rest') =>
          match parseStringBody fuel rest' with
          | some (s, r) => some (d :: s, r)
          | none => none
        | none => none
    else if c.toNat < 32 then none
    else
      match parseStringBody fuel rest with
      | some (s, r) => some (c :: s, r)
      | none => none

/-- A JSON number token: optional minus, `0` or a nonzero-led digit run,
optional fraction, optional exponent. Returns the raw token and the rest. -/
def parseNumberRaw (l : List Char) : Option (List Char × List Char) :=
  let (neg, l1) :=
    match l with
    | '-' :: t => (['-'], t)
    | _ => (([] : List Char), l)
  let intPart : Option (List Char × List Char) :=
    match l1 with
    | '0' :: t => some (['0'], t)
    | c :: t =>
      if isDigitChar c then
        some (c :: t.takeWhile isDigitChar, t.dropWhile isDigitChar)
      else none
    | [] => none
  match intPart with
  | none => none
  | some (ip, l2) =>
    let (fp, l3) :=
      match l2 with
      | '.' :: t =>
        match t.takeWhile isDigitChar with
        | [] => ([], l2)
        | ds => ('.' :: ds, t.dropWhile isDigitChar)
      | _ => (([] : List Char), l2)
    if fp = [] ∧ l2 ≠ l3 then none
    else
      match l3 with
      | e :: t =>
        if e == 'e' || e == 'E' then
          let (sgn, t2) :=
            match t with
            | '+' :: t' => (['+'], t')
            | '-' :: t' => (['-'], t')
            | _ => (([] : List Char), t)
          match t2.takeWhile isDigitChar with
          | [] => none
          | ds => some (neg ++ ip ++ fp ++ e :: sgn ++ ds, t2.dropWhile isDigitChar)
        else some (neg ++ ip ++ fp, l3)
      | [] => some (neg ++ ip ++ fp, l3)

/-- Insert a field into an object, replacing an existing key
(`serde_json`'s map keeps the last occurrence of a duplicate key). -/
def insertField (k : List Char) (v : Json) :
    List (List Char × Json) → List (List Char × Json)
  | [] => [(k, v)]
  | (k', v') :: rest =>
    if k' = k then (k', v) :: rest else (k', v') :: insertField k v rest

/-- Parser modes: a single value, the remaining elements of an array, or
the remaining fields of an object (mutual recursion expressed through one
fuel-indexed function so that every step is structural). -/
inductive PMode where
  | value
  | arrRest (acc : List Json)
  | objRest (acc : List (List Char × Json))

/-- One fuel-indexed parsing step covering values, array tails and object
tails. -/
def parseStep : ℕ → PMode → List Char → Option (Json × List Char)
  | 0, _, _ => none
  | fuel + 1, .value, l =>
    (match skipJsonWs l with
     | 'n' :: 'u' :: 'l' :: 'l' :: rest => some (.null, rest)
     | 't' :: 'r' :: 'u' :: 'e' :: rest => some (.bool true, rest)
     | 'f' :: 'a' :: 'l' :: 's' :: 'e' :: rest => some (.bool false, rest)
     | '"' :: rest =>
       (match parseStringBody (fuel + 1) rest with
        | some (s, r) => some (.str s, r)
        | none => none)
     | '[' :: rest =>
       (match skipJsonWs rest with
        | ']' :: r2 => some (.arr [], r2)
        | l2 => parseStep fuel (.arrRest []) l2)
     | '{' :: rest =>
       (match skipJsonWs rest with
        | '}' :: r2 => some (.obj [], r2)
        | l2 => parseStep fuel (.objRest []) l2)
     | c :: rest =>
       if c == '-' || isDigitChar c then
         match parseNumberRaw (c :: rest) with
         | some (raw, r) => some (.num raw, r)
         | none => none
       else none
     | [] => none)
  | fuel + 1, .arrRest acc, l =>
    (match parseStep fuel .value l with
     | some (v, r) =>
       (match skipJsonWs r with
        | ',' :: r2 => parseStep fuel (.arrRest (acc ++ [v])) r2
        | ']' :: r2 => some (.arr (acc ++ [v]), r2)
        | _ => none)
     | none => none)
  | fuel + 1, .objRest acc, l =>
    (match skipJsonWs l with
     | '"' :: rest =>
       (match parseStringBody (fuel + 1) rest with
        | some (k, r) =>
          (match skipJsonWs r with
           | ':' :: r2 =>
             (match parseStep fuel .value r2 with
              | some (v, r3) =>
                (match skipJsonWs r3 with
                 | ',' :: r4 => parseStep fuel (.objRest (insertField k v acc)) r4
                 | '}' :: r4 => some (.obj (insertField k v acc), r4)
                 | _ => none)
              | none => none)
           | _ => none)
        | none => none)
     | _ => none)

/-- Parse one JSON value. -/
def parseValue (fuel : ℕ) (l : List Char) : Option (Json × List Char) :=
  parseStep fuel .value l

/-- `serde_json::from_str`: parse one value and require that only
whitespace remains. -/
def parseJsonText (l : List Char) : Option Json :=
  match parseValue (l.length + 1) l with
  | some (v, rest) => if skipJsonWs rest = [] then some v else none
  | none => none

/-- Lookup of a string-valued key in an object's fields. -/
def lookupStrField : List (List Char × Json) → List Char → Option (List Char)
  | [], _ => none
  | (k, v) :: rest, f =>
    if k = f then
      match v with
      | .str s => some s
      | _ => none
    else lookupStrField rest f

/-- `Value::get` followed by `as_str`: a string field of an object. -/
def getStrField (j : Json) (field : List Char) : Option (List Char) :=
  match j with
  | .obj fields => lookupStrField fields field
  | _ => none

/-- The field names tried by `extract_content`, in order. -/
def content_fields : List (List Char) :=
  ["content".toList, "answer".toList, "text".toList, "response".toList,
   "message".toList]

/-- The first matching string field among `content_fields`. -/
def firstStrFieldAux (j : Json) : List (List Char) → Option (List Char)
  | [] => none
  | f :: rest =>
    match getStrField j f with
    | some s => some s
    | none => firstStrFieldAux j rest

/-- The content extracted from a parsed payload, if any. -/
def firstStrField (j : Json) : Option (List Char) :=
  firstStrFieldAux j content_fields

/-- Left-to-right non-overlapping replacement of the pattern `n` by `r`
(Rust `str::replace`), fuelled by the input length; when the fuel runs out
the rest is returned unchanged (never reached from `replaceSeq`). -/
def replaceSeqAux (n r : List Char) : ℕ → List Char → List Char
  | 0, l => l
  | _ + 1, [] => []
  | fuel + 1, c :: t =>
    if n ≠ [] ∧ startsWithSeq (c :: t) n = true then
      r ++ replaceSeqAux n r fuel ((c :: t).drop n.length)
    else c :: replaceSeqAux n r fuel t

/-- Rust `str::replace` on character lists. -/
def replaceSeq (n r l : List Char) : List Char :=
  replaceSeqAux n r l.length l

/-- The code-fence marker removed by `extract_content`. -/
def fenceSeq : List Char := "```".toList

/-- `extract_content`: trim, try the JSON content fields, otherwise remove
markdown code fences from the trimmed text. -/
def trimWs (l : List Char) : List Char :=
  ((l.dropWhile isWsChar).reverse.dropWhile isWsChar).reverse

def extract_content (raw : List Char) : List Char :=
  match parseJsonText (trimWs raw) with
  | some json =>
    (match firstStrField json with
     | some s => s
     | none => replaceSeq fenceSeq [] (trimWs raw))
  | none => replaceSeq fenceSeq [] (trimWs raw)

/-- `"\r\n"` → `"\n"` (left-to-right, non-overlapping). -/
def replaceCRLF : List Char → List Char
  | [] => []
  | [c] => [c]
  | c :: d :: t =>
    if c = '\r' ∧ d = '\n' then '\n' :: replaceCRLF t
    else c :: replaceCRLF (d :: t)

/-- Line-ending normalization of `clean_text`:
`.replace("\r\n", "\n").replace('\r', '\n')`. -/
def replaceCR (l : List Char) : List Char :=
  (replaceCRLF l).map fun c => if c = '\r' then '\n' else c

/-- Rust `str::lines`: split at `\n` (keeping interior empty segments),
with one trailing line ending optional. -/
def linesRust (l : List Char) : List (List Char) :=
  let parts := l.splitOn '\n'
  if parts.getLast? = some [] then parts.dropLast else parts

/-- Whitespace collapsing of one line:
`line.split_whitespace().collect::<Vec<_>>().join(" ")`. -/
def collapseLine (l : List Char) : List Char :=
  List.intercalate [' '] (wsTokens l)

/-- `clean_text`: normalize line endings, collapse intra-line whitespace,
join the lines with `\n` and trim. -/
def clean_text (text : List Char) : List Char :=
  trimWs (List.intercalate ['\n'] ((linesRust (replaceCR text)).map collapseLine))

/-- `NormalizedResponse`. -/
structure NormalizedResponse where
  answer : List Char
  status : String
deriving DecidableEq, Repr

/-- `normalize_response` (the `_model` argument is unused by the code). -/
def normalize_response (raw_response _model : List Char) : NormalizedResponse :=
  let text := extract_content raw_response
  let text := clean_text text
  { answer := text, status := classify_status text }

/-- The JSON content-field extraction applied to a text, as the second
normalization pass would attempt it. -/
def jsonExtract (t : List Char) : Option (List Char) :=
  match parseJsonText t with
  | some j => firstStrField j
  | none => none

/-- C9 counterexample: a JSON payload whose content field contains a code
fence. The first pass extracts the field verbatim; the second pass fails to
parse the extracted text as JSON and therefore strips the fence, changing
the answer. -/
theorem normalize_response_counterexample :
    (normalize_response "\x7b\"content\": \"a```bcdefghijklmn\"\x7d".toList
        "gpt".toList).answer = "a```bcdefghijklmn".toList ∧
    (normalize_response
        ((normalize_response "\x7b\"content\": \"a```bcdefghijklmn\"\x7d".toList
            "gpt".toList).answer) "gpt".toList).answer =
      "abcdefghijklmn".toList ∧
    (normalize_response
        ((normalize_response "\x7b\"content\": \"a```bcdefghijklmn\"\x7d".toList
            "gpt".toList).answer) "gpt".toList).answer ≠
      (normalize_response "\x7b\"content\": \"a```bcdefghijklmn\"\x7d".toList
        "gpt".toList).answer := by decide

/-! ### Idempotence of the cleaning pipeline -/

theorem intercalate_nil_list {α : Type} (sep : List α) :
    List.intercalate sep ([] : List (List α)) = [] := by
  simp [List.intercalate]

theorem intercalate_single {α : Type} (sep a : List α) :
    List.intercalate sep [a] = a := by
  simp [List.intercalate]

theorem intercalate_cons₂ {α : Type} (sep a b : List α) (l : List (List α)) :
    List.intercalate sep (a :: b :: l) =
      a ++ sep ++ List.intercalate sep (b :: l) := by
  simp [List.intercalate, List.intersperse_cons_cons]

theorem splitPred_cons (p : Char → Bool) (c : Char) (t : List Char) :
    splitPred p (c :: t) =
      if p c then [] :: splitPred p t
      else
        match splitPred p t with
        | [] => [[c]]
        | h :: r => (c :: h) :: r := rfl

theorem splitPred_ne_nil (p : Char → Bool) (l : List Char) :
    splitPred p l ≠ [] := by
  induction l with
  | nil => simp [splitPred]
  | cons c t ih =>
    rw [splitPred_cons]
    by_cases h : p c
    · simp [h]
    · simp only [h, if_false]
      cases hsp : splitPred p t with
      | nil => exact absurd hsp ih
      | cons a r => simp

theorem mem_splitPred (p : Char → Bool) (l : List Char) :
    ∀ s ∈ splitPred p l, ∀ c ∈ s, p c = false := by
  induction l with
  | nil =>
    intro s hs c hc
    simp [splitPred] at hs
    subst hs
    simp at hc
  | cons a t ih =>
    intro s hs c hc
    rw [splitPred_cons] at hs
    by_cases h : p a
    · rw [if_pos h, List.mem_cons] at hs
      cases hs with
      | inl heq => rw [heq] at hc; simp at hc
      | inr hmem => exact ih s hmem c hc
    · rw [if_neg h] at hs
      cases hsp : splitPred p t with
      | nil => exact absurd hsp (splitPred_ne_nil p t)
      | cons h0 r =>
        rw [hsp] at hs
        simp only [List.mem_cons] at hs
        cases hs with
        | inl heq =>
          rw [heq] at hc
          cases List.mem_cons.mp hc with
          | inl hca => rw [hca]; simpa using h
          | inr hc' => exact ih h0 (hsp ▸ List.mem_cons_self h0 r) c hc'
        | inr hmem => exact ih s (hsp ▸ List.mem_cons_of_mem h0 hmem) c hc

theorem tokensOk_wsTokens (l : List Char) :
    ∀ t ∈ wsTokens l, t ≠ [] ∧ ∀ c ∈ t, isWsChar c = false := by
  intro t ht
  rw [wsTokens, List.mem_filter] at ht
  refine ⟨by simpa using ht.2, fun c hc => mem_splitPred _ _ t ht.1 c hc⟩

theorem splitPred_of_noSep (p : Char → Bool) (t : List Char) (hne : t ≠ [])
    (hc : ∀ c ∈ t, p c = false) : splitPred p t = [t] := by
  induction t with
  | nil => exact absurd rfl hne
  | cons a t' ih =>
    rw [splitPred_cons, if_neg (by simp [hc a (List.mem_cons_self a t')])]
    cases t' with
    | nil => rfl
    | cons b t'' =>
      rw [ih (by simp) (fun c hcm => hc c (List.mem_cons_of_mem a hcm))]

theorem splitPred_append_sep (p : Char → Bool) (t : List Char) (s : Char)
    (rest : List Char) (hc : ∀ c ∈ t, p c = false) (hs : p s = true) :
    splitPred p (t ++ s :: rest) = t :: splitPred p rest := by
  induction t with
  | nil => simp [splitPred_cons, hs]
  | cons a t' ih =>
    have ha : p a = false := hc a (List.mem_cons_self a t')
    rw [List.cons_append, splitPred_cons, if_neg (by simp [ha]),
      ih (fun c hcm => hc c (List.mem_cons_of_mem a hcm))]

theorem wsTokens_intercalate (ts : List (List Char))
    (h : ∀ t ∈ ts, t ≠ [] ∧ ∀ c ∈ t, isWsChar c = false) :
    wsTokens (List.intercalate [' '] ts) = ts := by
  induction ts with
  | nil => simp [intercalate_nil_list, wsTokens, splitPred]
  | cons t ts' ih =>
    cases ts' with
    | nil =>
      obtain ⟨hne, hc⟩ := h t (List.mem_cons_self t [])
      rw [intercalate_single, wsTokens, splitPred_of_noSep isWsChar t hne hc]
      simp [hne]
    | cons t2 r =>
      obtain ⟨hne, hc⟩ := h t (List.mem_cons_self t _)
      have hrest : ∀ u ∈ t2 :: r, u ≠ [] ∧ ∀ c ∈ u, isWsChar c = false :=
        fun u hu => h u (List.mem_cons_of_mem t hu)
      rw [intercalate_cons₂, List.append_assoc, List.singleton_append, wsTokens,
        splitPred_append_sep isWsChar t ' ' _ hc (by decide),
        List.filter_cons_of_pos (by simpa using hne)]
      exact congrArg (List.cons t) (ih hrest)

theorem collapseLine_idem (l : List Char) :
    collapseLine (collapseLine l) = collapseLine l := by
  unfold collapseLine
  rw [wsTokens_intercalate (wsTokens l) (tokensOk_wsTokens l)]

theorem mem_intercalate_single {α : Type} (s : α) (ts : List (List α)) (c : α)
    (hc : c ∈ List.intercalate [s] ts) : c = s ∨ ∃ t ∈ ts, c ∈ t := by
  induction ts with
  | nil => rw [intercalate_nil_list] at hc; simp at hc
  | cons t ts' ih =>
    cases ts' with
    | nil =>
      rw [intercalate_single] at hc
      exact Or.inr ⟨t, List.mem_cons_self t [], hc⟩
    | cons t2 r =>
      rw [intercalate_cons₂, List.append_assoc, List.singleton_append,
        List.mem_append, List.mem_cons] at hc
      rcases hc with hct | hcs | hcr
      · exact Or.inr ⟨t, List.mem_cons_self t _, hct⟩
      · exact Or.inl hcs
      · rcases ih hcr with hs | ⟨u, hu, hcu⟩
        · exact Or.inl hs
        · exact Or.inr ⟨u, List.mem_cons_of_mem t hu, hcu⟩

theorem collapseLine_chars (l : List Char) (c : Char)
    (hc : c ∈ collapseLine l) : c = ' ' ∨ isWsChar c = false := by
  rcases mem_intercalate_single ' ' (wsTokens l) c hc with hs | ⟨t, ht, hct⟩
  · exact Or.inl hs
  · exact Or.inr ((tokensOk_wsTokens l t ht).2 c hct)

/-- The first character, when it exists, is not whitespace. -/
def HeadNotWs (l : List Char) : Prop :=
  ∀ c, l.head? = some c → isWsChar c = false

theorem intercalate_headNotWs (s : Char) (ts : List (List Char))
    (h : ∀ t ∈ ts, t ≠ [] ∧ ∀ c ∈ t, isWsChar c = false) :
    HeadNotWs (List.intercalate [s] ts) := by
  cases ts with
  | nil => intro c hc; rw [intercalate_nil_list] at hc; simp at hc
  | cons t ts' =>
    obtain ⟨hne, hcs⟩ := h t (List.mem_cons_self t ts')
    intro c hc
    have hh : (List.intercalate [s] (t :: ts')).head? = t.head? := by
      cases ts' with
      | nil => rw [intercalate_single]
      | cons t2 r =>
        rw [intercalate_cons₂, List.append_assoc, List.head?_append]
        cases t with
        | nil => exact absurd rfl hne
        | cons a t' => rfl
    rw [hh] at hc
    exact hcs c (List.mem_of_mem_head? (Option.mem_def.mpr hc))

theorem intercalate_append_single {α : Type} (s : α) (X : List (List α))
    (a : List α) (hX : X ≠ []) :
    List.intercalate [s] (X ++ [a]) = List.intercalate [s] X ++ s :: a := by
  induction X with
  | nil => exact absurd rfl hX
  | cons x X' ih =>
    cases X' with
    | nil =>
      rw [show (([x] ++ [a] : List (List α))) = [x, a] from rfl,
        intercalate_cons₂, intercalate_single, intercalate_single]
      simp
    | cons y Y =>
      have hstep := ih (by simp)
      rw [show (((x :: y :: Y) ++ [a] : List (List α))) =
          x :: ((y :: Y) ++ [a]) from rfl]
      rw [show (((y :: Y) ++ [a] : List (List α))) =
          y :: (Y ++ [a]) from rfl] at hstep ⊢
      rw [intercalate_cons₂, hstep, intercalate_cons₂]
      simp [List.append_assoc]

theorem intercalate_single_reverse {α : Type} (s : α) (ts : List (List α)) :
    (List.intercalate [s] ts).reverse =
      List.intercalate [s] ((ts.map List.reverse).reverse) := by
  induction ts with
  | nil => simp [intercalate_nil_list]
  | cons t ts' ih =>
    cases ts' with
    | nil => simp [intercalate_single]
    | cons t2 r =>
      rw [intercalate_cons₂, List.reverse_append, List.reverse_append, ih]
      rw [show ((t :: t2 :: r).map List.reverse) =
        t.reverse :: ((t2 :: r).map List.reverse) from rfl]
      rw [show ((t.reverse :: ((t2 :: r).map List.reverse)).reverse) =
        ((t2 :: r).map List.reverse).reverse ++ [t.reverse] from
          List.reverse_cons t.reverse _]
      rw [intercalate_append_single s (((t2 :: r).map List.reverse).reverse)
        t.reverse (by simp)]
      simp [List.append_assoc]

theorem collapseLine_headNotWs (m : List Char) : HeadNotWs (collapseLine m) :=
  intercalate_headNotWs ' ' _ (tokensOk_wsTokens m)

theorem collapseLine_rev_headNotWs (m : List Char) :
    HeadNotWs (collapseLine m).reverse := by
  rw [collapseLine, intercalate_single_reverse]
  apply intercalate_headNotWs
  intro t ht
  rw [List.mem_reverse, List.mem_map] at ht
  obtain ⟨u, hu, rfl⟩ := ht
  obtain ⟨hne, hcs⟩ := tokensOk_wsTokens m u hu
  exact ⟨by simpa using hne, fun c hcm => hcs c (List.mem_reverse.mp hcm)⟩

theorem head?_dropWhile_false {α : Type} (p : α → Bool) (l : List α) (c : α)
    (hc : (l.dropWhile p).head? = some c) : p c = false := by
  induction l with
  | nil => simp at hc
  | cons a t ih =>
    rw [List.dropWhile_cons] at hc
    by_cases hp : p a
    · rw [if_pos hp] at hc; exact ih hc
    · rw [if_neg hp] at hc
      simp only [List.head?_cons, Option.some.injEq] at hc
      rw [← hc]
      simpa using hp

theorem dropWhile_eq_self_of_head {α : Type} (p : α → Bool) (l : List α)
    (h : ∀ c, l.head? = some c → p c = false) : l.dropWhile p = l := by
  cases l with
  | nil => rfl
  | cons a t =>
    rw [List.dropWhile_cons, if_neg (by simp [h a rfl])]

theorem getLast?_dropWhile_eq {α : Type} (p : α → Bool) (l : List α)
    (h : l.dropWhile p ≠ []) : (l.dropWhile p).getLast? = l.getLast? := by
  induction l with
  | nil => simp at h
  | cons a t ih =>
    rw [List.dropWhile_cons]
    by_cases hp : p a
    · rw [if_pos hp]
      rw [List.dropWhile_cons, if_pos hp] at h
      cases t with
      | nil => simp at h
      | cons b t' => rw [ih h, List.getLast?_cons_cons]
    · rw [if_neg hp]

theorem trimGen_head {α : Type} (p : α → Bool) (l : List α) (c : α)
    (hc : (((l.dropWhile p).reverse.dropWhile p).reverse).head? = some c) :
    p c = false := by
  rw [List.head?_reverse] at hc
  have hm : (l.dropWhile p).reverse.dropWhile p ≠ [] := by
    intro h
    rw [h] at hc
    simp at hc
  rw [getLast?_dropWhile_eq p _ hm, List.getLast?_reverse] at hc
  exact head?_dropWhile_false p l c hc

theorem trimGen_last {α : Type} (p : α → Bool) (l : List α) (c : α)
    (hc : (((l.dropWhile p).reverse.dropWhile p).reverse).getLast? = some c) :
    p c = false := by
  rw [List.getLast?_reverse] at hc
  exact head?_dropWhile_false p _ c hc

theorem trimGen_fix {α : Type} (p : α → Bool) (l : List α)
    (h1 : ∀ c, l.head? = some c → p c = false)
    (h2 : ∀ c, l.getLast? = some c → p c = false) :
    ((l.dropWhile p).reverse.dropWhile p).reverse = l := by
  rw [dropWhile_eq_self_of_head p l h1,
    dropWhile_eq_self_of_head p l.reverse
      (fun c hc => h2 c (by rwa [List.head?_reverse] at hc)),
    List.reverse_reverse]

theorem trimWs_headNotWs (l : List Char) : HeadNotWs (trimWs l) :=
  fun c hc => trimGen_head isWsChar l c hc

theorem trimWs_lastNotWs (l : List Char) :
    ∀ c, (trimWs l).getLast? = some c → isWsChar c = false :=
  fun c hc => trimGen_last isWsChar l c hc

theorem trimWs_idem (l : List Char) : trimWs (trimWs l) = trimWs l :=
  trimGen_fix isWsChar (trimWs l) (trimWs_headNotWs l) (trimWs_lastNotWs l)

theorem dropWhile_intercalate_nl (ls : List (List Char))
    (h : ∀ l ∈ ls, HeadNotWs l) :
    (List.intercalate ['\n'] ls).dropWhile isWsChar =
      List.intercalate ['\n'] (ls.dropWhile List.isEmpty) := by
  induction ls with
  | nil => simp [intercalate_nil_list]
  | cons l ls' ih =>
    cases l with
    | nil =>
      cases ls' with
      | nil => simp [intercalate_single, List.isEmpty, intercalate_nil_list]
      | cons l2 r =>
        rw [intercalate_cons₂, List.nil_append, List.singleton_append,
          List.dropWhile_cons, if_pos (by decide),
          ih (fun u hu => h u (List.mem_cons_of_mem [] hu)),
          show (([] :: l2 :: r : List (List Char)).dropWhile List.isEmpty) =
            ((l2 :: r : List (List Char)).dropWhile List.isEmpty) from by
              rw [List.dropWhile_cons, if_pos (by simp [List.isEmpty])]]
    | cons c lc =>
      have hc : isWsChar c = false := h (c :: lc) (List.mem_cons_self _ _) c rfl
      have hdrop : ∀ rest : List Char,
          ((c :: lc) ++ rest).dropWhile isWsChar = (c :: lc) ++ rest := by
        intro rest
        rw [List.cons_append, List.dropWhile_cons, if_neg (by simp [hc])]
      have hskip : ((c :: lc) :: ls').dropWhile List.isEmpty =
          (c :: lc) :: ls' := by
        rw [List.dropWhile_cons, if_neg (by simp [List.isEmpty])]
      rw [hskip]
      cases ls' with
      | nil =>
        rw [intercalate_single]
        have := hdrop []
        simpa using this
      | cons l2 r =>
        rw [intercalate_cons₂, List.append_assoc, hdrop _]

theorem trimWs_intercalate_nl (ls : List (List Char))
    (h : ∀ l ∈ ls, HeadNotWs l ∧ HeadNotWs l.reverse) :
    trimWs (List.intercalate ['\n'] ls) =
      List.intercalate ['\n']
        (((ls.dropWhile List.isEmpty).reverse.dropWhile List.isEmpty).reverse) := by
  have hpe : (List.isEmpty ∘ List.reverse : List Char → Bool) = List.isEmpty := by
    funext x
    cases x <;> simp
  show ((((List.intercalate ['\n'] ls).dropWhile isWsChar).reverse).dropWhile
      isWsChar).reverse = _
  rw [dropWhile_intercalate_nl ls (fun l hl => (h l hl).1)]
  rw [intercalate_single_reverse '\n' (ls.dropWhile List.isEmpty)]
  rw [dropWhile_intercalate_nl _ (by
    intro l hl
    rw [List.mem_reverse, List.mem_map] at hl
    obtain ⟨u, hu, rfl⟩ := hl
    exact (h u ((List.dropWhile_sublist List.isEmpty).subset hu)).2)]
  rw [show (((ls.dropWhile List.isEmpty).map List.reverse).reverse) =
      ((ls.dropWhile List.isEmpty).reverse.map List.reverse) from
    (List.map_reverse List.reverse (ls.dropWhile List.isEmpty)).symm]
  rw [List.dropWhile_map, hpe]
  rw [intercalate_single_reverse '\n']
  rw [show ((((ls.dropWhile List.isEmpty).reverse.dropWhile List.isEmpty).map
      List.reverse).map List.reverse) =
      ((ls.dropWhile List.isEmpty).reverse.dropWhile List.isEmpty) from by
    rw [List.map_map]
    have hrr : (List.reverse ∘ List.reverse : List Char → List Char) = id := by
      funext x
      simp
    rw [hrr, List.map_id]]

/-- Leading and trailing empty lines dropped (the effect of the final trim
on the joined lines). -/
def trimEmptyLines (ls : List (List Char)) : List (List Char) :=
  ((ls.dropWhile List.isEmpty).reverse.dropWhile List.isEmpty).reverse

theorem clean_text_eq (x : List Char) :
    clean_text x = List.intercalate ['\n']
      (trimEmptyLines ((linesRust (replaceCR x)).map collapseLine)) := by
  unfold clean_text trimEmptyLines trimWs
  exact trimWs_intercalate_nl _ (by
    intro l hl
    rw [List.mem_map] at hl
    obtain ⟨m, _, rfl⟩ := hl
    exact ⟨collapseLine_headNotWs m, collapseLine_rev_headNotWs m⟩)

theorem trimEmptyLines_head (ls : List (List Char)) (u : List Char)
    (hh : (trimEmptyLines ls).head? = some u) : u ≠ [] := by
  have := trimGen_head List.isEmpty ls u hh
  simpa using this

theorem trimEmptyLines_last (ls : List (List Char)) (u : List Char)
    (hh : (trimEmptyLines ls).getLast? = some u) : u ≠ [] := by
  have := trimGen_last List.isEmpty ls u hh
  simpa using this

theorem trimEmptyLines_fix (ls : List (List Char))
    (h1 : ∀ u, ls.head? = some u → u ≠ [])
    (h2 : ∀ u, ls.getLast? = some u → u ≠ []) : trimEmptyLines ls = ls := by
  refine trimGen_fix List.isEmpty ls (fun u hu => ?_) (fun u hu => ?_)
  · cases u with
    | nil => exact absurd rfl (h1 [] hu)
    | cons a t => rfl
  · cases u with
    | nil => exact absurd rfl (h2 [] hu)
    | cons a t => rfl

theorem mem_trimEmptyLines (ls : List (List Char)) (l : List Char)
    (hl : l ∈ trimEmptyLines ls) : l ∈ ls := by
  unfold trimEmptyLines at hl
  rw [List.mem_reverse] at hl
  have h2 := (List.dropWhile_sublist (l := (ls.dropWhile List.isEmpty).reverse)
    List.isEmpty).subset hl
  rw [List.mem_reverse] at h2
  exact (List.dropWhile_sublist List.isEmpty).subset h2

theorem linesRust_intercalate (ls : List (List Char)) (hne : ls ≠ [])
    (hnl : ∀ l ∈ ls, '\n' ∉ l) (hlast : ls.getLast? ≠ some []) :
    linesRust (List.intercalate ['\n'] ls) = ls := by
  unfold linesRust
  rw [show (List.intercalate ['\n'] ls).splitOn '\n' = ls from
    List.splitOn_intercalate ls '\n' hnl hne]
  rw [if_neg hlast]

theorem replaceCRLF_eq_self (l : List Char) (h : '\r' ∉ l) :
    replaceCRLF l = l := by
  induction l with
  | nil => rfl
  | cons c t ih =>
    cases t with
    | nil => rfl
    | cons d t' =>
      have hc : ¬(c = '\r' ∧ d = '\n') := by
        rintro ⟨rfl, -⟩
        exact h (List.mem_cons_self _ _)
      rw [show replaceCRLF (c :: d :: t') =
          if c = '\r' ∧ d = '\n' then '\n' :: replaceCRLF t'
          else c :: replaceCRLF (d :: t') from rfl, if_neg hc]
      rw [ih fun hm => h (List.mem_cons_of_mem c hm)]

theorem replaceCR_eq_self (l : List Char) (h : '\r' ∉ l) : replaceCR l = l := by
  rw [replaceCR, replaceCRLF_eq_self l h]
  have hmap : ∀ c ∈ l, (if c = '\r' then '\n' else c) = c := by
    intro c hc
    exact if_neg fun hEq : c = '\r' => h (hEq ▸ hc)
  rw [List.map_congr_left hmap, List.map_id']

theorem clean_text_idem (x : List Char) :
    clean_text (clean_text x) = clean_text x := by
  set ls₂ := trimEmptyLines ((linesRust (replaceCR x)).map collapseLine)
    with hls₂
  have hz : clean_text x = List.intercalate ['\n'] ls₂ := clean_text_eq x
  have hmem : ∀ l ∈ ls₂, ∃ m, l = collapseLine m := by
    intro l hl
    have hm := mem_trimEmptyLines _ l (hls₂ ▸ hl)
    rw [List.mem_map] at hm
    obtain ⟨m, -, rfl⟩ := hm
    exact ⟨m, rfl⟩
  have hchars : ∀ l ∈ ls₂, ∀ c ∈ l, c = ' ' ∨ isWsChar c = false := by
    intro l hl c hc
    obtain ⟨m, rfl⟩ := hmem l hl
    exact collapseLine_chars m c hc
  have hnl : ∀ l ∈ ls₂, '\n' ∉ l := by
    intro l hl hmemnl
    rcases hchars l hl '\n' hmemnl with hcs | hcs
    · exact absurd hcs (by decide)
    · exact absurd hcs (by decide)
  have hcr : '\r' ∉ List.intercalate ['\n'] ls₂ := by
    intro hmemcr
    rcases mem_intercalate_single '\n' ls₂ '\r' hmemcr with hcs | ⟨t, ht, hct⟩
    · exact absurd hcs (by decide)
    · rcases hchars t ht '\r' hct with hcs | hcs
      · exact absurd hcs (by decide)
      · exact absurd hcs (by decide)
  rw [hz]
  by_cases hemp : ls₂ = []
  · rw [hemp, intercalate_nil_list]
    decide
  · have hne : ls₂ ≠ [] := hemp
    have hlast : ls₂.getLast? ≠ some [] := by
      intro hsome
      exact trimEmptyLines_last _ [] (hls₂ ▸ hsome) rfl
    have hhead : ∀ u, ls₂.head? = some u → u ≠ [] := by
      intro u hu
      exact trimEmptyLines_head _ u (hls₂ ▸ hu)
    rw [show clean_text (List.intercalate ['\n'] ls₂) =
        trimWs (List.intercalate ['\n']
          ((linesRust (replaceCR (List.intercalate ['\n'] ls₂))).map
            collapseLine)) from rfl]
    rw [replaceCR_eq_self _ hcr]
    rw [linesRust_intercalate ls₂ hne hnl hlast]
    have hmapfix : ls₂.map collapseLine = ls₂ := by
      have hcongr : ∀ l ∈ ls₂, collapseLine l = l := by
        intro l hl
        obtain ⟨m, rfl⟩ := hmem l hl
        exact collapseLine_idem m
      rw [List.map_congr_left hcongr, List.map_id']
    rw [hmapfix]
    rw [trimWs_intercalate_nl ls₂ (by
      intro l hl
      obtain ⟨m, rfl⟩ := hmem l hl
      exact ⟨collapseLine_headNotWs m, collapseLine_rev_headNotWs m⟩)]
    rw [show (((ls₂.dropWhile List.isEmpty).reverse.dropWhile
        List.isEmpty).reverse) = trimEmptyLines ls₂ from rfl]
    rw [trimEmptyLines_fix ls₂ hhead (fun u hu heq => hlast (heq ▸ hu))]

theorem replaceSeqAux_of_not_contains (n r : List Char) (fuel : ℕ)
    (l : List Char) (h : containsSeq n l = false) :
    replaceSeqAux n r fuel l = l := by
  induction fuel generalizing l with
  | zero => rfl
  | succ f ih =>
    cases l with
    | nil => rfl
    | cons c t =>
      have hdecomp : startsWithSeq (c :: t) n = false ∧
          containsSeq n t = false := by
        have hh : (startsWithSeq (c :: t) n || containsSeq n t) = false := h
        simpa using hh
      rw [show replaceSeqAux n r (f + 1) (c :: t) =
          (if n ≠ [] ∧ startsWithSeq (c :: t) n = true then
            r ++ replaceSeqAux n r f ((c :: t).drop n.length)
          else c :: replaceSeqAux n r f t) from rfl]
      rw [if_neg (by simp [hdecomp.1]), ih t hdecomp.2]

theorem replaceSeq_of_not_contains (n r l : List Char)
    (h : containsSeq n l = false) : replaceSeq n r l = l :=
  replaceSeqAux_of_not_contains n r l.length l h

theorem trimWs_clean_text (x : List Char) :
    trimWs (clean_text x) = clean_text x :=
  trimWs_idem (List.intercalate ['\n']
    ((linesRust (replaceCR x)).map collapseLine))

/-- Unfolding equation for `normalize_response`. -/
theorem normalize_response_def (raw m : List Char) :
    normalize_response raw m =
      { answer := clean_text (extract_content raw)
        status := classify_status (clean_text (extract_content raw)) } := rfl

/-- Unfolding equation for `extract_content`. -/
theorem extract_content_def (raw : List Char) :
    extract_content raw =
      (match parseJsonText (trimWs raw) with
       | some json =>
         (match firstStrField json with
          | some s => s
          | none => replaceSeq fenceSeq [] (trimWs raw))
       | none => replaceSeq fenceSeq [] (trimWs raw)) := rfl

/-- C9 amended: normalization is idempotent for every raw payload whose
normalized answer neither yields a JSON content field on re-parsing nor
contains the code-fence marker: re-normalizing such an answer returns the
same answer text and the same status. (The counterexample shows the two
excluded cases are real: an answer that itself parses as JSON with a
content field, or that contains a fence, changes under re-normalization.) -/
theorem normalize_response_idem (raw model model2 : List Char)
    (hjson : jsonExtract ((normalize_response raw model).answer) = none)
    (hfence : containsSeq fenceSeq ((normalize_response raw model).answer) = false) :
    normalize_response ((normalize_response raw model).answer) model2 =
      normalize_response raw model := by
  simp only [normalize_response_def] at hjson hfence ⊢
  have htrim : trimWs (clean_text (extract_content raw)) =
      clean_text (extract_content raw) :=
    trimWs_clean_text (extract_content raw)
  have hext : extract_content (clean_text (extract_content raw)) =
      clean_text (extract_content raw) := by
    rw [extract_content_def (clean_text (extract_content raw)), htrim]
    unfold jsonExtract at hjson
    cases hp : parseJsonText (clean_text (extract_content raw)) with
    | none =>
      exact replaceSeq_of_not_contains _ _ _ hfence
    | some j =>
      rw [hp] at hjson
      have hf : firstStrField j = none := hjson
      show (match firstStrField j with
        | some s => s
        | none => replaceSeq fenceSeq []
            (clean_text (extract_content raw))) =
          clean_text (extract_content raw)
      rw [hf]
      exact replaceSeq_of_not_contains _ _ _ hfence
  have hclean : clean_text (clean_text (extract_content raw)) =
      clean_text (extract_content raw) :=
    clean_text_idem (extract_content raw)
  rw [hext, hclean]

/-- Witness for C9 (amended) at a concrete plain-text payload. -/
theorem normalize_response_idem_witness :
    normalize_response
        ((normalize_response "an ordinary enough payload".toList
            "m".toList).answer) "m2".toList =
      normalize_response "an ordinary enough payload".toList "m".toList :=
  normalize_response_idem "an ordinary enough payload".toList "m".toList
    "m2".toList (by decide) (by decide)

end DomainRunner
